import Mathlib

/-!
Shallow embedding of the UPLID core (`src/uplid/uplid.py`): the base62
codec, the prefix validator, the identifier value type with its equality,
ordering, hashing and timestamp accessors, and the canonical
parser/formatter `UPLID.from_string` / `UPLID.__str__`.

Python strings are modelled as `List Char`; Python's arbitrary-precision
non-negative integers as `Nat`.  Fallible operations return `Except`;
the distinct Python exception classes that can arise inside
`from_string` (`KeyError` from the base62 decode map, `ValueError` from
the length guard and from the `UUID(int=...)` constructor, and the
library's own `UPLIDError`) are modelled as distinct constructors so
that the catch-and-wrap behaviour of the parser is visible.
-/

namespace Uplid

/-- Constant `_BASE62_ALPHABET`, the string
`"0123456789ABCDEFGHIJKLMNOPQRSTUVWXYZabcdefghijklmnopqrstuvwxyz"`. -/
def base62Alphabet : List Char :=
  "0123456789ABCDEFGHIJKLMNOPQRSTUVWXYZabcdefghijklmnopqrstuvwxyz".data

/-- Constant `_BASE62_UUID_LENGTH = 22`. -/
def base62UuidLength : Nat := 22

/-- Constant `_UUIDV7_TIMESTAMP_SHIFT = 80`. -/
def uuidv7TimestampShift : Nat := 80

/-- Constant `_MS_PER_SECOND = 1000`. -/
def msPerSecond : Nat := 1000

/-- Dictionary `_BASE62_DECODE_MAP`, built by `enumerate(_BASE62_ALPHABET)`:
lookup of a character's index in the alphabet (`none` models `KeyError`).
The alphabet has no duplicate characters, so the dictionary built by
`enumerate` maps each character to its unique index, i.e. `indexOf?`. -/
def base62DecodeMap (c : Char) : Option Nat :=
  base62Alphabet.indexOf? c

/-- Indexing `_BASE62_ALPHABET[d]`; every call site has `d < 62`, so the
default value of `getD` is never used. -/
def base62Digit (d : Nat) : Char :=
  base62Alphabet.getD d '0'

/-- The digits of `num` in base 62, least-significant first: the list of
remainders collected by the `while num > 0` loop of `_int_to_base62`. -/
def toB62Digits (num : Nat) : List Nat :=
  if h : num = 0 then []
  else (num % 62) :: toB62Digits (num / 62)
decreasing_by exact Nat.div_lt_self (Nat.pos_of_ne_zero h) (by norm_num)

/-- Python `str.zfill(w)`: left-pad with the character `'0'` up to width
`w` (no-op when the string is already at least `w` long; the inputs here
never start with a sign character). -/
def zfill (w : Nat) (l : List Char) : List Char :=
  List.replicate (w - l.length) '0' ++ l

/-- Function `_int_to_base62(num)`: 22 zero-symbols for `0`; otherwise the base62
digits, most-significant first, left-padded with `'0'` to 22 characters. -/
def intToBase62 (num : Nat) : List Char :=
  if num = 0 then List.replicate base62UuidLength '0'
  else zfill base62UuidLength ((toB62Digits num).reverse.map base62Digit)

/-- The Python exceptions that the body of `from_string` has to deal
with: `KeyError` (raised by `_BASE62_DECODE_MAP[char]`) and `ValueError`
(raised by the length guard of `_base62_to_int` and by `UUID(int=...)`). -/
inductive PyExc
  | keyError
  | valueError
deriving DecidableEq

/-- The `for char in s: result = result * 62 + _BASE62_DECODE_MAP[char]`
loop of `_base62_to_int`, raising `KeyError` at the first character
absent from the decode map. -/
def decodeLoop (acc : Nat) : List Char → Except PyExc Nat
  | [] => .ok acc
  | c :: rest =>
    match base62DecodeMap c with
    | some d => decodeLoop (acc * 62 + d) rest
    | none => .error .keyError

/-- Function `_base62_to_int(s)`: `ValueError` when the input exceeds 22
characters, otherwise the accumulation loop (which may raise `KeyError`). -/
def base62ToInt (s : List Char) : Except PyExc Nat :=
  if s.length > base62UuidLength then .error .valueError
  else decodeLoop 0 s

/-- Constructor `UUID(int=uid_int)`: the constructor accepts exactly the integers in
`[0, 2^128)` and raises `ValueError` otherwise (the argument is a `Nat`,
so only the upper bound can fail). -/
def uuidFromInt (n : Nat) : Except PyExc Nat :=
  if n < 2 ^ 128 then .ok n else .error .valueError

/-- Constant `_PREFIX_MAX_LENGTH = 64`. -/
def pfxMaxLength : Nat := 64

/-- The character class `[a-z]`. -/
def isLowerAZ (c : Char) : Bool :=
  'a' ≤ c && c ≤ 'z'

mutual
/-- State of the matcher for `_PREFIX_PATTERN = ^[a-z]([a-z]*(_[a-z]+)*)?$`
after the leading letter: accepts any remainder over `[a-z]` and `'_'` in
which every underscore is immediately followed by a letter — exactly the
language of `([a-z]*(_[a-z]+)*)?` (its deterministic automaton). -/
def matchTail : List Char → Bool
  | [] => true
  | c :: rest =>
    if isLowerAZ c then matchTail rest
    else if c = '_' then matchAfterUnd rest
    else false

/-- State immediately after reading an underscore: the `[a-z]+` of a
`(_[a-z]+)` group requires at least one letter before anything else. -/
def matchAfterUnd : List Char → Bool
  | [] => false
  | c :: rest => isLowerAZ c && matchTail rest
end

/-- Match of the pattern BODY `[a-z]([a-z]*(_[a-z]+)*)?` against a whole
string: a leading `[a-z]`, then the optional tail.  This is also exactly
the documented naming policy (source comment: snake_case, must start and
end with a letter, no consecutive underscores; the tests build their
valid prefixes with `fullmatch` of an equivalent newline-free pattern). -/
def pfxBodyMatch : List Char → Bool
  | [] => false
  | c :: rest => isLowerAZ c && matchTail rest

/-- Truthiness of `_PREFIX_PATTERN.match(p)`.  The pattern is anchored
with `^` and `$` and `re.match` anchors the start, but Python's `$`
(without `MULTILINE`) matches at the end of the string OR just before a
single newline that ends the string, so the accepted language is the
pattern body's language together with every body-language string
followed by one trailing `'\n'`. -/
def pfxPatternMatch (p : List Char) : Bool :=
  pfxBodyMatch p || (p.getLast? == some '\n' && pfxBodyMatch p.dropLast)

/-- Predicate form of `_validate_prefix(p)`: the length guard
(`UPLIDError` when longer than 64) and the snake_case pattern
(`UPLIDError` when `_PREFIX_PATTERN` does not match). -/
def validPfx (p : List Char) : Bool :=
  p.length ≤ pfxMaxLength && pfxPatternMatch p

/-- The distinct `raise UPLIDError(...)` sites of the core (each has its
own message in the source; the spec's taxonomy names them): the prefix
validator's rejection (`PrefixError`/`InvalidPrefix`), and the four
parse-level rejections. -/
inductive ErrKind
  | invalidPfx
  | missingSeparator
  | pfxMismatch
  | badLength
  | badEncoding
deriving DecidableEq

/-- What a call into the library can raise: the library's own typed
`UPLIDError`, or (hypothetically) an escaped `KeyError`/`ValueError`
from the helpers — the parser is required to catch and wrap the latter. -/
inductive PyError
  | uplidErr (k : ErrKind)
  | keyErr
  | valueErr
deriving DecidableEq

/-- The `UPLID` value: `_prefix` (modelled as `pfx`), `_uid` (the 128-bit
integer of the `UUID`, modelled as `Nat`), and the lazily populated
`_base62_uid` cache. -/
structure UPLID where
  pfx : List Char
  uid : Nat
  cache : Option (List Char)
deriving DecidableEq

/-- Constructor `UPLID.__init__(p, uid)`: validates the prefix, then stores
`(prefix, uid)` with an empty encoding cache. -/
def uplidInit (p : List Char) (uid : Nat) : Except PyError UPLID :=
  if validPfx p then .ok ⟨p, uid, none⟩
  else .error (.uplidErr .invalidPfx)

/-- Classmethod `UPLID.generate(p)`: validates the prefix and stores a fresh
`uuid7()` value with an empty cache.  The nondeterministic `uuid7()`
result is passed in as the argument `uuid7Val`. -/
def generate (p : List Char) (uuid7Val : Nat) : Except PyError UPLID :=
  if validPfx p then .ok ⟨p, uuid7Val, none⟩
  else .error (.uplidErr .invalidPfx)

/-- The `base62_uid` property: return the cache if populated, else
encode `_uid`. -/
def base62Uid (u : UPLID) : List Char :=
  match u.cache with
  | some s => s
  | none => intToBase62 u.uid

/-- Method `UPLID.__str__`: `f"{self._prefix}_{self.base62_uid}"`. -/
def uplidStr (u : UPLID) : List Char :=
  u.pfx ++ '_' :: base62Uid u

/-- Method `UPLID.__eq__`: structural equality on `(_prefix, _uid)`; the cache
does not participate. -/
def uplidEqb (a b : UPLID) : Bool :=
  a.pfx == b.pfx && a.uid == b.uid

/-- Method `UPLID.__hash__` is `hash((self._prefix, self._uid))`: the hash is a
function of this key pair and of nothing else. -/
def uplidHashKey (u : UPLID) : List Char × Nat :=
  (u.pfx, u.uid)

/-- Python `str` comparison `<`: lexicographic by code point, with a
proper prefix sorting before its extensions. -/
def strLt : List Char → List Char → Bool
  | _, [] => false
  | [], _ :: _ => true
  | a :: as, b :: bs =>
    if a.toNat < b.toNat then true
    else if b.toNat < a.toNat then false
    else strLt as bs

/-- Method `UPLID.__lt__`: Python tuple comparison
`(self._prefix, self._uid) < (other._prefix, other._uid)` — prefix
first (string order), `_uid` as tiebreaker (`UUID.__lt__` compares the
128-bit integers). -/
def uplidLtb (a b : UPLID) : Bool :=
  strLt a.pfx b.pfx || (a.pfx == b.pfx && a.uid < b.uid)

/-- The millisecond field `ms = self._uid.int >> _UUIDV7_TIMESTAMP_SHIFT`
computed by both the `datetime` and the `timestamp` property. -/
def timestampMs (u : UPLID) : Nat :=
  u.uid >>> uuidv7TimestampShift

/-- The `timestamp` property: `ms / _MS_PER_SECOND` — Unix time in
seconds.  Python's float division is modelled as exact division in `ℚ`. -/
def timestamp (u : UPLID) : ℚ :=
  (timestampMs u : ℚ) / (msPerSecond : ℚ)

/-- The `datetime` property returns
`datetime.fromtimestamp(ms / _MS_PER_SECOND, tz=UTC)`; `fromtimestamp`
is an injective conversion from epoch seconds to calendar time, so the
property is modelled by the epoch-seconds argument passed to it. -/
def datetimeEpochSeconds (u : UPLID) : ℚ :=
  (timestampMs u : ℚ) / (msPerSecond : ℚ)

/-- The split performed by `from_string`: Python checks `"_" in string`
and then cuts at `string.rfind("_")`, i.e. at the LAST underscore.
`none` models the missing-separator case; otherwise the result is
`(string[:last_underscore], string[last_underscore + 1:])`. -/
def splitLastUnd : List Char → Option (List Char × List Char)
  | [] => none
  | c :: rest =>
    match splitLastUnd rest with
    | some (a, b) => some (c :: a, b)
    | none => if c = '_' then some ([], rest) else none

/-- Classmethod `UPLID.from_string(string, p)`: split at the last underscore,
validate the candidate prefix, compare it with the expected one, check
the 22-character width, then decode — catching `KeyError` and
`ValueError` from `_base62_to_int` / `UUID(int=...)` and wrapping them
as `UPLIDError` (`badEncoding`).  On success the instance carries the
expected prefix, the decoded value, and the tail as its populated cache. -/
def fromString (string : List Char) (expected : List Char) :
    Except PyError UPLID :=
  match splitLastUnd string with
  | none => .error (.uplidErr .missingSeparator)
  | some (parsedPfx, encodedUid) =>
    if ¬ validPfx parsedPfx then .error (.uplidErr .invalidPfx)
    else if parsedPfx ≠ expected then .error (.uplidErr .pfxMismatch)
    else if encodedUid.length ≠ base62UuidLength then
      .error (.uplidErr .badLength)
    else
      match (base62ToInt encodedUid >>= uuidFromInt : Except PyExc Nat) with
      | .error _ => .error (.uplidErr .badEncoding)
      | .ok uidInt => .ok ⟨expected, uidInt, some encodedUid⟩

/-- Returns `true` on `ok` results and on the library's typed `UPLIDError`;
`false` on an escaped `KeyError` or `ValueError`. -/
def isTypedResult : Except PyError UPLID → Bool
  | .ok _ => true
  | .error (.uplidErr _) => true
  | .error .keyErr => false
  | .error .valueErr => false

instance {ε α : Type} [DecidableEq ε] [DecidableEq α] :
    DecidableEq (Except ε α) := fun x y =>
  match x, y with
  | .ok a, .ok b =>
    if h : a = b then .isTrue (h ▸ rfl)
    else .isFalse (fun hc => h (by injection hc))
  | .error a, .error b =>
    if h : a = b then .isTrue (h ▸ rfl)
    else .isFalse (fun hc => h (by injection hc))
  | .ok _, .error _ => .isFalse (fun hc => Except.noConfusion hc)
  | .error _, .ok _ => .isFalse (fun hc => Except.noConfusion hc)

/-! ## Facts about the alphabet and the decode map -/

/-- Decoding inverts indexing: for every digit value `d < 62`, the
decode map sends `_BASE62_ALPHABET[d]` back to `d`. -/
theorem base62DecodeMap_digit : ∀ d, d < 62 → base62DecodeMap (base62Digit d) = some d := by
  decide

/-- No digit character is an underscore. -/
theorem base62Digit_ne_underscore : ∀ d, d < 62 → base62Digit d ≠ '_' := by
  decide

/-- The numeral bound that makes 22 digits enough for 128 bits. -/
theorem two_pow_128_lt_62_pow_22 : 2 ^ 128 < 62 ^ 22 := by norm_num

/-! ## The digit loop of `_int_to_base62` -/

/-- Every remainder collected by the encoding loop is below 62. -/
theorem toB62Digits_lt : ∀ n, ∀ d ∈ toB62Digits n, d < 62 := by
  intro n
  induction n using Nat.strong_induction_on with
  | _ n ih =>
    rw [toB62Digits]
    split
    · simp
    · rename_i h
      intro d hd
      rcases List.mem_cons.mp hd with rfl | hd
      · exact Nat.mod_lt _ (by norm_num)
      · exact ih (n / 62) (Nat.div_lt_self (Nat.pos_of_ne_zero h) (by norm_num)) d hd

/-- Value of a least-significant-first digit list. -/
def ofB62DigitsLSB : List Nat → Nat
  | [] => 0
  | d :: ds => d + 62 * ofB62DigitsLSB ds

/-- The encoding loop's digits reassemble to the encoded number. -/
theorem ofB62DigitsLSB_toB62Digits : ∀ n, ofB62DigitsLSB (toB62Digits n) = n := by
  intro n
  induction n using Nat.strong_induction_on with
  | _ n ih =>
    rw [toB62Digits]
    split
    · rename_i h; simp [ofB62DigitsLSB, h]
    · rename_i h
      rw [ofB62DigitsLSB,
        ih (n / 62) (Nat.div_lt_self (Nat.pos_of_ne_zero h) (by norm_num))]
      exact Nat.mod_add_div n 62

/-- Digit count of the encoding loop: `n < 62 ^ k` yields at most `k`
digits. -/
theorem toB62Digits_length_le : ∀ k n, n < 62 ^ k → (toB62Digits n).length ≤ k := by
  intro k
  induction k with
  | zero =>
    intro n hn
    interval_cases n
    rw [toB62Digits]
    simp
  | succ k ih =>
    intro n hn
    rw [toB62Digits]
    split
    · simp
    · rename_i h
      have : n / 62 < 62 ^ k := by
        rw [Nat.div_lt_iff_lt_mul (by norm_num : 0 < 62)]
        calc n < 62 ^ (k + 1) := hn
        _ = 62 ^ k * 62 := by rw [pow_succ]
      simpa using Nat.succ_le_succ (ih (n / 62) this)

/-! ## Behaviour of the decode loop -/

/-- Unfolding of the decode loop on an empty input. -/
theorem decodeLoop_nil (acc : Nat) : decodeLoop acc [] = .ok acc := rfl

/-- Unfolding of one step of the decode loop. -/
theorem decodeLoop_cons (acc : Nat) (c : Char) (rest : List Char) :
    decodeLoop acc (c :: rest) =
      match base62DecodeMap c with
      | some d => decodeLoop (acc * 62 + d) rest
      | none => .error .keyError := rfl

/-- Splitting a successful decode across an append. -/
theorem decodeLoop_append_ok {l₁ : List Char} {acc a : Nat}
    (h : decodeLoop acc l₁ = .ok a) (l₂ : List Char) :
    decodeLoop acc (l₁ ++ l₂) = decodeLoop a l₂ := by
  induction l₁ generalizing acc with
  | nil =>
    rw [decodeLoop_nil] at h
    injection h with h
    subst h
    rfl
  | cons c rest ih =>
    cases hm : base62DecodeMap c with
    | some d =>
      simp only [decodeLoop_cons, hm] at h
      rw [List.cons_append]
      simp only [decodeLoop_cons, hm]
      exact ih h
    | none =>
      simp only [decodeLoop_cons, hm] at h
      exact absurd h (by simp)

/-- Decoding the most-significant-first digit string of a digit list. -/
theorem decodeLoop_digits (ds : List Nat) (hd : ∀ d ∈ ds, d < 62) :
    ∀ acc, decodeLoop acc (ds.reverse.map base62Digit) =
      .ok (acc * 62 ^ ds.length + ofB62DigitsLSB ds) := by
  induction ds with
  | nil => intro acc; simp [decodeLoop, ofB62DigitsLSB]
  | cons d ds ih =>
    intro acc
    have hdlt : d < 62 := hd d (List.mem_cons_self d ds)
    have hds : ∀ e ∈ ds, e < 62 := fun e he => hd e (List.mem_cons_of_mem d he)
    rw [List.reverse_cons, List.map_append,
      decodeLoop_append_ok (ih hds acc) _]
    rw [List.map_singleton, decodeLoop_cons, base62DecodeMap_digit d hdlt]
    show Except.ok ((acc * 62 ^ ds.length + ofB62DigitsLSB ds) * 62 + d) =
      Except.ok (acc * 62 ^ (d :: ds).length + ofB62DigitsLSB (d :: ds))
    congr 1
    rw [ofB62DigitsLSB, List.length_cons, pow_succ]
    ring

/-- Leading zero-symbols do not change the decoded value when the
accumulator is zero. -/
theorem decodeLoop_zero_pad (k : Nat) (l : List Char) :
    decodeLoop 0 (List.replicate k '0' ++ l) = decodeLoop 0 l := by
  induction k with
  | zero => rfl
  | succ k ih =>
    rw [List.replicate_succ, List.cons_append, decodeLoop_cons]
    have h0 : base62DecodeMap '0' = some 0 := by decide
    rw [h0]
    exact ih

/-- A decode loop over characters of the alphabet never raises. -/
theorem decodeLoop_total (l : List Char)
    (h : ∀ c ∈ l, (base62DecodeMap c).isSome) :
    ∀ acc, ∃ n, decodeLoop acc l = .ok n := by
  induction l with
  | nil => intro acc; exact ⟨acc, rfl⟩
  | cons c rest ih =>
    intro acc
    have hc : (base62DecodeMap c).isSome := h c (List.mem_cons_self c rest)
    cases hm : base62DecodeMap c with
    | none => rw [hm] at hc; exact absurd hc (by simp)
    | some d =>
      obtain ⟨n, hn⟩ :=
        ih (fun e he => h e (List.mem_cons_of_mem c he)) (acc * 62 + d)
      exact ⟨n, by rw [decodeLoop_cons, hm]; exact hn⟩

/-- A decode loop over a list containing a character outside the
alphabet raises `KeyError`. -/
theorem decodeLoop_bad_char (l : List Char)
    (h : ∃ c ∈ l, base62DecodeMap c = none) :
    ∀ acc, decodeLoop acc l = .error .keyError := by
  induction l with
  | nil => simp at h
  | cons c rest ih =>
    intro acc
    rw [decodeLoop_cons]
    cases hm : base62DecodeMap c with
    | none => rfl
    | some d =>
      obtain ⟨e, he, hne⟩ := h
      rcases List.mem_cons.mp he with rfl | he
      · exact absurd hne (by rw [hm]; simp)
      · exact ih ⟨e, he, hne⟩ _

/-! ## The codec roundtrip -/

/-- Length of the fixed-width encoding. -/
theorem intToBase62_length (n : Nat) (h : n < 2 ^ 128) :
    (intToBase62 n).length = 22 := by
  rw [intToBase62]
  split
  · simp [base62UuidLength]
  · have hlen : ((toB62Digits n).reverse.map base62Digit).length ≤ 22 := by
      rw [List.length_map, List.length_reverse]
      exact toB62Digits_length_le 22 n (h.trans two_pow_128_lt_62_pow_22)
    rw [zfill, List.length_append, List.length_replicate, base62UuidLength]
    omega

/-- No character of an encoding is an underscore. -/
theorem intToBase62_ne_underscore (n : Nat) :
    ∀ c ∈ intToBase62 n, c ≠ '_' := by
  intro c hc
  rw [intToBase62] at hc
  have hrep : ∀ k, c ∈ List.replicate k '0' → c ≠ '_' := by
    intro k hk
    rw [List.eq_of_mem_replicate hk]
    decide
  split at hc
  · exact hrep _ hc
  · rw [zfill] at hc
    rcases List.mem_append.mp hc with hc | hc
    · exact hrep _ hc
    · obtain ⟨d, hd, rfl⟩ := List.mem_map.mp hc
      exact base62Digit_ne_underscore d
        (toB62Digits_lt n d (List.mem_reverse.mp hd))

/-- Decoding inverts encoding below `2 ^ 128`. -/
theorem base62ToInt_intToBase62 (v : Nat) (h : v < 2 ^ 128) :
    base62ToInt (intToBase62 v) = .ok v := by
  rw [base62ToInt, intToBase62_length v h]
  rw [if_neg (by rw [base62UuidLength]; omega)]
  rw [intToBase62]
  split
  · rename_i h0
    subst h0
    have := decodeLoop_zero_pad base62UuidLength []
    rw [List.append_nil] at this
    rw [this]
    rfl
  · rw [zfill, decodeLoop_zero_pad]
    rw [decodeLoop_digits (toB62Digits v) (toB62Digits_lt v) 0]
    rw [ofB62DigitsLSB_toB62Digits]
    simp

/-! ## The split at the last underscore -/

/-- Unfolding of the split on a nonempty input. -/
theorem splitLastUnd_cons (c : Char) (rest : List Char) :
    splitLastUnd (c :: rest) =
      match splitLastUnd rest with
      | some (a, b) => some (c :: a, b)
      | none => if c = '_' then some ([], rest) else none := rfl

/-- The split fails exactly on underscore-free input (`"_" not in string`). -/
theorem splitLastUnd_eq_none_iff (s : List Char) :
    splitLastUnd s = none ↔ '_' ∉ s := by
  induction s with
  | nil => simp [splitLastUnd]
  | cons c rest ih =>
    rw [splitLastUnd_cons]
    cases hr : splitLastUnd rest with
    | some p =>
      have hmem : '_' ∈ rest := by
        by_contra hm
        rw [← ih] at hm
        rw [hm] at hr
        exact Option.noConfusion hr
      simp [hmem]
    | none =>
      have hrest : '_' ∉ rest := ih.mp hr
      by_cases hc : c = '_'
      · subst hc
        simp
      · rw [if_neg hc]
        constructor
        · intro _ hmem
          rcases List.mem_cons.mp hmem with h | h
          · exact hc h.symm
          · exact hrest h
        · intro _
          rfl

/-- Splitting a string assembled from an underscore-free tail recovers
the two parts: the split really cuts at the LAST underscore. -/
theorem splitLastUnd_append (a b : List Char) (hb : '_' ∉ b) :
    splitLastUnd (a ++ '_' :: b) = some (a, b) := by
  induction a with
  | nil =>
    rw [List.nil_append, splitLastUnd_cons,
      (splitLastUnd_eq_none_iff b).mpr hb]
    simp
  | cons c a ih =>
    rw [List.cons_append, splitLastUnd_cons, ih]

/-- A successful split decomposes the input at an underscore with an
underscore-free remainder. -/
theorem splitLastUnd_some {s a b : List Char}
    (h : splitLastUnd s = some (a, b)) :
    s = a ++ '_' :: b ∧ '_' ∉ b := by
  induction s generalizing a with
  | nil => exact Option.noConfusion h
  | cons c rest ih =>
    rw [splitLastUnd_cons] at h
    cases hr : splitLastUnd rest with
    | some p =>
      obtain ⟨a', b'⟩ := p
      rw [hr] at h
      injection h with h
      injection h with h1 h2
      subst h2
      obtain ⟨hs, hb⟩ := ih hr
      subst h1
      exact ⟨by rw [List.cons_append, hs], hb⟩
    | none =>
      rw [hr] at h
      by_cases hc : c = '_'
      · rw [if_pos hc] at h
        injection h with h
        injection h with h1 h2
        subst h1; subst h2; subst hc
        exact ⟨rfl, (splitLastUnd_eq_none_iff rest).mp hr⟩
      · rw [if_neg hc] at h
        exact Option.noConfusion h

/-! ## Python string order -/

/-- Characters with equal code points are equal. -/
theorem char_toNat_inj {a b : Char} (h : a.toNat = b.toNat) : a = b :=
  Char.le_antisymm (Nat.le_of_eq h) (Nat.le_of_eq h.symm)

/-- Unfolding of the string order on two nonempty strings. -/
theorem strLt_cons (a b : Char) (as bs : List Char) :
    strLt (a :: as) (b :: bs) =
      if a.toNat < b.toNat then true
      else if b.toNat < a.toNat then false
      else strLt as bs := rfl

/-- String order is irreflexive. -/
theorem strLt_irrefl : ∀ l : List Char, strLt l l = false := by
  intro l
  induction l with
  | nil => rfl
  | cons c rest ih => rw [strLt_cons]; simp [ih]

/-- String order is transitive. -/
theorem strLt_trans :
    ∀ a b c : List Char, strLt a b = true → strLt b c = true →
      strLt a c = true := by
  intro a
  induction a with
  | nil =>
    intro b c hab hbc
    cases b with
    | nil => exact absurd hab (by simp [strLt])
    | cons x xs =>
      cases c with
      | nil => exact absurd hbc (by simp [strLt])
      | cons y ys => rfl
  | cons p ps ih =>
    intro b c hab hbc
    cases b with
    | nil => exact absurd hab (by simp [strLt])
    | cons x xs =>
      cases c with
      | nil => exact absurd hbc (by simp [strLt])
      | cons y ys =>
        rcases Nat.lt_trichotomy p.toNat x.toNat with hpx | hpx | hpx
        · rcases Nat.lt_trichotomy x.toNat y.toNat with hxy | hxy | hxy
          · rw [strLt_cons, if_pos (by omega)]
          · rw [strLt_cons, if_pos (by omega)]
          · rw [strLt_cons, if_neg (by omega), if_pos (by omega)] at hbc
            exact Bool.noConfusion hbc
        · rcases Nat.lt_trichotomy x.toNat y.toNat with hxy | hxy | hxy
          · rw [strLt_cons, if_pos (by omega)]
          · rw [strLt_cons, if_neg (by omega), if_neg (by omega)] at hab
            rw [strLt_cons, if_neg (by omega), if_neg (by omega)] at hbc
            rw [strLt_cons, if_neg (by omega), if_neg (by omega)]
            exact ih xs ys hab hbc
          · rw [strLt_cons, if_neg (by omega), if_pos (by omega)] at hbc
            exact Bool.noConfusion hbc
        · rw [strLt_cons, if_neg (by omega), if_pos (by omega)] at hab
          exact Bool.noConfusion hab

/-- String order is connected: distinct strings compare one way. -/
theorem strLt_connex :
    ∀ a b : List Char, a ≠ b → strLt a b = true ∨ strLt b a = true := by
  intro a
  induction a with
  | nil =>
    intro b hne
    cases b with
    | nil => exact absurd rfl hne
    | cons y ys => exact Or.inl rfl
  | cons x xs ih =>
    intro b hne
    cases b with
    | nil => exact Or.inr rfl
    | cons y ys =>
      rcases Nat.lt_trichotomy x.toNat y.toNat with h | h | h
      · exact Or.inl (by rw [strLt_cons]; simp [h])
      · have hxy : x = y := char_toNat_inj h
        subst hxy
        have hne' : xs ≠ ys := by
          intro hc; exact hne (by rw [hc])
        rcases ih ys hne' with htl | htl
        · exact Or.inl (by rw [strLt_cons]; simpa using htl)
        · exact Or.inr (by rw [strLt_cons]; simpa using htl)
      · exact Or.inr (by rw [strLt_cons]; simp [h])

/-- String order is asymmetric. -/
theorem strLt_asymm {a b : List Char} (h : strLt a b = true) :
    strLt b a = false := by
  by_contra hc
  have hba : strLt b a = true := by
    cases hab : strLt b a
    · exact absurd hab hc
    · rfl
  have := strLt_trans a b a h hba
  rw [strLt_irrefl] at this
  exact Bool.noConfusion this

/-! ## The claims -/

/-- C2: for every `v` in `[0, 2^128)` the codec satisfies
`_base62_to_int(_int_to_base62(v)) == v` and
`len(_int_to_base62(v)) == 22`, with `_int_to_base62(0)` the string of
22 zero-symbols; hence `_int_to_base62` is injective on `[0, 2^128)`. -/
theorem claimC2_codecBijection (v : Nat) (hv : v < 2 ^ 128) :
    base62ToInt (intToBase62 v) = .ok v ∧
    (intToBase62 v).length = 22 ∧
    intToBase62 0 = List.replicate 22 '0' ∧
    (∀ w, w < 2 ^ 128 → intToBase62 v = intToBase62 w → v = w) := by
  refine ⟨base62ToInt_intToBase62 v hv, intToBase62_length v hv, ?_, ?_⟩
  · rw [intToBase62, if_pos rfl]
    rfl
  · intro w hw he
    have h1 := base62ToInt_intToBase62 v hv
    have h2 := base62ToInt_intToBase62 w hw
    rw [he, h2] at h1
    injection h1 with h
    exact h.symm

/-- Witness for C2 at the concrete value `12345`. -/
theorem claimC2_codecBijection_witness :
    base62ToInt (intToBase62 12345) = .ok 12345 ∧
    (intToBase62 12345).length = 22 ∧
    intToBase62 0 = List.replicate 22 '0' ∧
    (∀ w, w < 2 ^ 128 → intToBase62 12345 = intToBase62 w → 12345 = w) :=
  claimC2_codecBijection 12345 (by norm_num)

/-- C10: the decoder is defined on every alphabet string of length at
most 22, not only canonical widths — the empty string decodes to `0`,
leading zero-symbol padding is invisible to it (so it is not injective
across input lengths), and the exact 22-character width is enforced by
the parse layer, not by the codec. -/
theorem claimC10_decoderShape :
    base62ToInt [] = .ok 0 ∧
    (∀ l, l.length ≤ 22 → (∀ c ∈ l, (base62DecodeMap c).isSome) →
      ∃ n, base62ToInt l = .ok n) ∧
    (∀ k l, k + l.length ≤ 22 →
      base62ToInt (List.replicate k '0' ++ l) = base62ToInt l) ∧
    base62ToInt ['0', '1'] = base62ToInt ['1'] ∧
    (['0', '1'] : List Char) ≠ ['1'] ∧
    base62ToInt ['1'] = .ok 1 ∧
    fromString "usr_1".data "usr".data = .error (.uplidErr .badLength) := by
  refine ⟨by decide, ?_, ?_, by decide, by decide, by decide, by decide⟩
  · intro l h1 h2
    rw [base62ToInt, if_neg (by rw [base62UuidLength]; omega)]
    exact decodeLoop_total l h2 0
  · intro k l h
    have h1 : ¬ (List.replicate k '0' ++ l).length > base62UuidLength := by
      rw [List.length_append, List.length_replicate, base62UuidLength]
      omega
    have h2 : ¬ l.length > base62UuidLength := by
      rw [base62UuidLength]
      omega
    rw [base62ToInt, if_neg h1, base62ToInt, if_neg h2, decodeLoop_zero_pad]

/-- Witness for C10: a 3-character decode succeeds, and 2 zero-symbols
of padding are invisible. -/
theorem claimC10_decoderShape_witness :
    (∃ n, base62ToInt "3D7".data = .ok n) ∧
    base62ToInt (List.replicate 2 '0' ++ ['1']) = base62ToInt ['1'] :=
  ⟨claimC10_decoderShape.2.1 "3D7".data (by decide) (by decide),
   claimC10_decoderShape.2.2.1 2 ['1'] (by decide)⟩

/-- Unfolding of the parser once the split is known. -/
theorem fromString_split {s cand tail : List Char} (expected : List Char)
    (hs : splitLastUnd s = some (cand, tail)) :
    fromString s expected =
      if ¬ validPfx cand then .error (.uplidErr .invalidPfx)
      else if cand ≠ expected then .error (.uplidErr .pfxMismatch)
      else if tail.length ≠ base62UuidLength then
        .error (.uplidErr .badLength)
      else
        match (base62ToInt tail >>= uuidFromInt : Except PyExc Nat) with
        | .error _ => .error (.uplidErr .badEncoding)
        | .ok uidInt => .ok ⟨expected, uidInt, some tail⟩ := by
  unfold fromString
  rw [hs]

/-- Range guarantee of the `UUID(int=...)` constructor. -/
theorem uuidFromInt_ok {m n : Nat} (h : uuidFromInt m = .ok n) :
    n < 2 ^ 128 ∧ n = m := by
  rw [uuidFromInt] at h
  split at h
  · injection h with h
    subst h
    exact ⟨‹_›, rfl⟩
  · exact Except.noConfusion h

/-- Range guarantee of the decode-then-construct pipeline. -/
theorem decodePipeline_ok {tail : List Char} {n : Nat}
    (h : (base62ToInt tail >>= uuidFromInt : Except PyExc Nat) = .ok n) :
    n < 2 ^ 128 := by
  cases hb : base62ToInt tail with
  | error e =>
    rw [hb] at h
    exact Except.noConfusion h
  | ok m =>
    rw [hb] at h
    exact (uuidFromInt_ok h).1

/-- C8: `from_string` resolves every input to a result or to the
library's typed error; the `KeyError` and `ValueError` that the decoder
and the `UUID` constructor can raise are always caught and wrapped. -/
theorem claimC8_fuzzSafety (s p : List Char) :
    isTypedResult (fromString s p) = true := by
  unfold fromString
  repeat' split
  all_goals rfl

/-- C3: the parser splits at the LAST underscore (candidate prefix
before it, encoded tail after it) and fails with exactly the first
violated rule in the order missing separator, invalid prefix, prefix
mismatch, bad length, bad encoding (bad character or magnitude at least
`2 ^ 128`); a successful parse always carries a value below `2 ^ 128`. -/
theorem claimC3_errorOrder (s expected : List Char) :
    ('_' ∉ s → fromString s expected = .error (.uplidErr .missingSeparator)) ∧
    (∀ cand tail, s = cand ++ '_' :: tail → '_' ∉ tail →
      (validPfx cand = false →
        fromString s expected = .error (.uplidErr .invalidPfx)) ∧
      (validPfx cand = true → cand ≠ expected →
        fromString s expected = .error (.uplidErr .pfxMismatch)) ∧
      (validPfx cand = true → cand = expected → tail.length ≠ 22 →
        fromString s expected = .error (.uplidErr .badLength)) ∧
      (validPfx cand = true → cand = expected → tail.length = 22 →
        (∃ c ∈ tail, base62DecodeMap c = none) →
        fromString s expected = .error (.uplidErr .badEncoding)) ∧
      (∀ n, validPfx cand = true → cand = expected → tail.length = 22 →
        decodeLoop 0 tail = .ok n → 2 ^ 128 ≤ n →
        fromString s expected = .error (.uplidErr .badEncoding))) ∧
    (∀ u, fromString s expected = .ok u → u.uid < 2 ^ 128) := by
  refine ⟨?_, ?_, ?_⟩
  · intro h
    unfold fromString
    rw [(splitLastUnd_eq_none_iff s).mpr h]
  · intro cand tail hs htail
    subst hs
    have hsplit := splitLastUnd_append cand tail htail
    refine ⟨?_, ?_, ?_, ?_, ?_⟩
    · intro hbad
      rw [fromString_split expected hsplit, if_pos (by simp [hbad])]
    · intro hg hneq
      rw [fromString_split expected hsplit, if_neg (by simp [hg]),
        if_pos hneq]
    · intro hg heq hlen
      rw [fromString_split expected hsplit, if_neg (by simp [hg]),
        if_neg (by simp [heq]), if_pos (by rw [base62UuidLength]; exact hlen)]
    · intro hg heq hlen hbad
      rw [fromString_split expected hsplit, if_neg (by simp [hg]),
        if_neg (by simp [heq]),
        if_neg (by rw [base62UuidLength]; omega)]
      have hpipe :
          (base62ToInt tail >>= uuidFromInt : Except PyExc Nat) =
            .error .keyError := by
        rw [base62ToInt, if_neg (by rw [base62UuidLength]; omega),
          decodeLoop_bad_char tail hbad 0]
        rfl
      rw [hpipe]
    · intro n hg heq hlen hdec hge
      rw [fromString_split expected hsplit, if_neg (by simp [hg]),
        if_neg (by simp [heq]),
        if_neg (by rw [base62UuidLength]; omega)]
      have hpipe :
          (base62ToInt tail >>= uuidFromInt : Except PyExc Nat) =
            .error .valueError := by
        rw [base62ToInt, if_neg (by rw [base62UuidLength]; omega), hdec]
        show uuidFromInt n = .error .valueError
        rw [uuidFromInt, if_neg (by omega)]
      rw [hpipe]
  · intro u hok
    cases hsp : splitLastUnd s with
    | none =>
      unfold fromString at hok
      rw [hsp] at hok
      exact Except.noConfusion hok
    | some pr =>
      obtain ⟨cand, tail⟩ := pr
      rw [fromString_split expected hsp] at hok
      split_ifs at hok
      cases hd : (base62ToInt tail >>= uuidFromInt : Except PyExc Nat) with
      | error e =>
        rw [hd] at hok
        exact Except.noConfusion hok
      | ok n =>
        rw [hd] at hok
        injection hok with hok
        rw [← hok]
        exact decodePipeline_ok hd

/-- Witness for C3: one concrete rejection per rule, including both
bad-encoding causes, and the prefix-mismatch (not invalid-prefix)
outcome for the validator-accepted trailing-newline candidate. -/
theorem claimC3_errorOrder_witness :
    fromString "nounderscore".data "usr".data =
      .error (.uplidErr .missingSeparator) ∧
    fromString "usr\n_0000000000000000000000".data "usr".data =
      .error (.uplidErr .pfxMismatch) ∧
    fromString "Usr_0000000000000000000000".data "Usr".data =
      .error (.uplidErr .invalidPfx) ∧
    fromString "usr_0000000000000000000000".data "org".data =
      .error (.uplidErr .pfxMismatch) ∧
    fromString "usr_".data "usr".data = .error (.uplidErr .badLength) ∧
    fromString "usr_!!!!!!!!!!!!!!!!!!!!!!".data "usr".data =
      .error (.uplidErr .badEncoding) ∧
    fromString "usr_zzzzzzzzzzzzzzzzzzzzzz".data "usr".data =
      .error (.uplidErr .badEncoding) := by
  refine ⟨(claimC3_errorOrder _ _).1 (by decide),
    ((claimC3_errorOrder _ _).2.1 "usr\n".data
      "0000000000000000000000".data (by decide) (by decide)).2.1
      (by decide) (by decide),
    ((claimC3_errorOrder _ _).2.1 "Usr".data
      "0000000000000000000000".data (by decide) (by decide)).1 (by decide),
    ((claimC3_errorOrder _ _).2.1 "usr".data
      "0000000000000000000000".data (by decide) (by decide)).2.1
      (by decide) (by decide),
    ((claimC3_errorOrder _ _).2.1 "usr".data [] (by decide)
      (by decide)).2.2.1 (by decide) rfl (by decide),
    ((claimC3_errorOrder _ _).2.1 "usr".data
      "!!!!!!!!!!!!!!!!!!!!!!".data (by decide) (by decide)).2.2.2.1
      (by decide) rfl (by decide) (by decide),
    ((claimC3_errorOrder _ _).2.1 "usr".data
      "zzzzzzzzzzzzzzzzzzzzzz".data (by decide) (by decide)).2.2.2.2
      (62 ^ 22 - 1) (by decide) rfl (by decide) (by decide) (by norm_num)⟩

/-- C1: for every prefix accepted by the validator (underscores
included) and every `v` in `[0, 2^128)`, constructing the identifier,
formatting it, and parsing the result with the same expected prefix
succeeds and yields an identifier equal (in the sense of `__eq__`) to
the original. -/
theorem claimC1_roundTrip (p : List Char) (v : Nat)
    (hp : validPfx p = true) (hv : v < 2 ^ 128) :
    uplidInit p v = .ok ⟨p, v, none⟩ ∧
    fromString (uplidStr ⟨p, v, none⟩) p = .ok ⟨p, v, some (intToBase62 v)⟩ ∧
    uplidEqb ⟨p, v, some (intToBase62 v)⟩ ⟨p, v, none⟩ = true := by
  refine ⟨by rw [uplidInit, if_pos hp], ?_, by simp [uplidEqb]⟩
  have hstr : uplidStr ⟨p, v, none⟩ = p ++ '_' :: intToBase62 v := rfl
  have hund : '_' ∉ intToBase62 v := fun hmem =>
    intToBase62_ne_underscore v '_' hmem rfl
  rw [hstr, fromString_split p (splitLastUnd_append p (intToBase62 v) hund)]
  rw [if_neg (by simp [hp]), if_neg (by simp),
    if_neg (by simp [intToBase62_length v hv, base62UuidLength])]
  have hpipe :
      (base62ToInt (intToBase62 v) >>= uuidFromInt : Except PyExc Nat) =
        .ok v := by
    rw [base62ToInt_intToBase62 v hv]
    show uuidFromInt v = .ok v
    rw [uuidFromInt, if_pos hv]
  rw [hpipe]

/-- Witness for C1 at the underscore-containing prefix `"api_key"` with
value `12345`, and at the validator-accepted trailing-newline prefix
`"usr\n"` with value `7`. -/
theorem claimC1_roundTrip_witness :
    (uplidInit "api_key".data 12345 = .ok ⟨"api_key".data, 12345, none⟩ ∧
     fromString (uplidStr ⟨"api_key".data, 12345, none⟩) "api_key".data =
       .ok ⟨"api_key".data, 12345, some (intToBase62 12345)⟩ ∧
     uplidEqb ⟨"api_key".data, 12345, some (intToBase62 12345)⟩
       ⟨"api_key".data, 12345, none⟩ = true) ∧
    (uplidInit "usr\n".data 7 = .ok ⟨"usr\n".data, 7, none⟩ ∧
     fromString (uplidStr ⟨"usr\n".data, 7, none⟩) "usr\n".data =
       .ok ⟨"usr\n".data, 7, some (intToBase62 7)⟩ ∧
     uplidEqb ⟨"usr\n".data, 7, some (intToBase62 7)⟩
       ⟨"usr\n".data, 7, none⟩ = true) :=
  ⟨claimC1_roundTrip "api_key".data 12345 (by decide) (by norm_num),
   claimC1_roundTrip "usr\n".data 7 (by decide) (by norm_num)⟩

/-- C5: the claim says every construction path enforces the documented
snake_case policy, so no live identifier ever holds an invalid prefix
and `generate` fails with the prefix error on any invalid prefix.  The
code contradicts its own documentation here: the prefix `"usr\n"` ends
in a newline (the documented policy and the pattern body reject it),
yet `_PREFIX_PATTERN.match` accepts it because `$` matches before a
trailing newline — so `generate`, `__init__` and `from_string` all
produce live identifiers carrying the policy-violating prefix. -/
theorem claimC5_newlinePrefixBug :
    pfxBodyMatch "usr\n".data = false ∧
    "usr\n".data.getLast? = some '\n' ∧
    validPfx "usr\n".data = true ∧
    generate "usr\n".data 0 = .ok ⟨"usr\n".data, 0, none⟩ ∧
    uplidInit "usr\n".data 0 = .ok ⟨"usr\n".data, 0, none⟩ ∧
    fromString "usr\n_0000000000000000000000".data "usr\n".data =
      .ok ⟨"usr\n".data, 0, some (List.replicate 22 '0')⟩ := by
  refine ⟨by decide, by decide, by decide, by decide, by decide, by decide⟩

/-- C6: identifiers are equal exactly when prefix and value are equal;
the cache participates in neither equality nor the hash key, and the
hash is consistent with equality, so identifiers built from the same
pair by different paths (whatever their cache states) are equal and
collide as map keys. -/
theorem claimC6_equalityAndHash :
    (∀ a b : UPLID, uplidEqb a b = true ↔ a.pfx = b.pfx ∧ a.uid = b.uid) ∧
    (∀ p u c₁ c₂, uplidEqb ⟨p, u, c₁⟩ ⟨p, u, c₂⟩ = true) ∧
    (∀ a b, uplidEqb a b = true → uplidHashKey a = uplidHashKey b) ∧
    (∀ p u c₁ c₂, uplidHashKey ⟨p, u, c₁⟩ = uplidHashKey ⟨p, u, c₂⟩) := by
  have hiff : ∀ a b : UPLID,
      uplidEqb a b = true ↔ a.pfx = b.pfx ∧ a.uid = b.uid := by
    intro a b
    rw [uplidEqb, Bool.and_eq_true, beq_iff_eq, beq_iff_eq]
  refine ⟨hiff, ?_, ?_, ?_⟩
  · intro p u c₁ c₂
    exact (hiff _ _).mpr ⟨rfl, rfl⟩
  · intro a b h
    obtain ⟨h1, h2⟩ := (hiff a b).mp h
    rw [uplidHashKey, uplidHashKey, h1, h2]
  · intro p u c₁ c₂
    rfl

/-- Witness for C6: a cached and an uncached copy of the same pair are
equal and share the hash key. -/
theorem claimC6_equalityAndHash_witness :
    uplidEqb ⟨"usr".data, 7, none⟩
      ⟨"usr".data, 7, some (intToBase62 7)⟩ = true ∧
    uplidHashKey (UPLID.mk "usr".data 7 none) =
      uplidHashKey ⟨"usr".data, 7, some (intToBase62 7)⟩ :=
  ⟨claimC6_equalityAndHash.2.1 "usr".data 7 none (some (intToBase62 7)),
   claimC6_equalityAndHash.2.2.2 "usr".data 7 none (some (intToBase62 7))⟩

/-- C7: comparison is the lexicographic order on the pair
`(prefix, value)` — prefix by code points first, value numerically as
tiebreaker — and it is a strict total order modulo `__eq__`;
`Identifier("aaa", v) < Identifier("zzz", v)` for any shared value, and
distinct prefixes order the identifiers regardless of values. -/
theorem claimC7_totalOrder :
    (∀ a b : UPLID, uplidLtb a b = true ↔
      (strLt a.pfx b.pfx = true ∨ (a.pfx = b.pfx ∧ a.uid < b.uid))) ∧
    (∀ a : UPLID, uplidLtb a a = false) ∧
    (∀ a b c : UPLID, uplidLtb a b = true → uplidLtb b c = true →
      uplidLtb a c = true) ∧
    (∀ a b : UPLID, uplidLtb a b = true → uplidLtb b a = false) ∧
    (∀ a b : UPLID,
      uplidLtb a b = true ∨ uplidEqb a b = true ∨ uplidLtb b a = true) ∧
    (∀ v c₁ c₂, uplidLtb ⟨"aaa".data, v, c₁⟩ ⟨"zzz".data, v, c₂⟩ = true) ∧
    (∀ a b : UPLID, strLt a.pfx b.pfx = true → uplidLtb a b = true) := by
  have hiff : ∀ a b : UPLID, uplidLtb a b = true ↔
      (strLt a.pfx b.pfx = true ∨ (a.pfx = b.pfx ∧ a.uid < b.uid)) := by
    intro a b
    rw [uplidLtb, Bool.or_eq_true, Bool.and_eq_true, beq_iff_eq,
      decide_eq_true_eq]
  have hasymm : ∀ a b : UPLID, uplidLtb a b = true → uplidLtb b a = false := by
    intro a b hab
    cases hba : uplidLtb b a
    · rfl
    · exfalso
      rcases (hiff a b).mp hab with h1 | ⟨h1, h1'⟩ <;>
        rcases (hiff b a).mp hba with h2 | ⟨h2, h2'⟩
      · rw [strLt_asymm h1] at h2
        exact Bool.noConfusion h2
      · rw [h2] at h1
        rw [strLt_irrefl] at h1
        exact Bool.noConfusion h1
      · rw [h1] at h2
        rw [strLt_irrefl] at h2
        exact Bool.noConfusion h2
      · exact Nat.lt_asymm h1' h2'
  refine ⟨hiff, ?_, ?_, hasymm, ?_, ?_, ?_⟩
  · intro a
    simp [uplidLtb, strLt_irrefl]
  · intro a b c hab hbc
    apply (hiff a c).mpr
    rcases (hiff a b).mp hab with h1 | ⟨h1, h1'⟩ <;>
      rcases (hiff b c).mp hbc with h2 | ⟨h2, h2'⟩
    · exact Or.inl (strLt_trans _ _ _ h1 h2)
    · exact Or.inl (h2 ▸ h1)
    · exact Or.inl (h1 ▸ h2)
    · exact Or.inr ⟨h1.trans h2, h1'.trans h2'⟩
  · intro a b
    by_cases hp : a.pfx = b.pfx
    · rcases Nat.lt_trichotomy a.uid b.uid with h | h | h
      · exact Or.inl ((hiff a b).mpr (Or.inr ⟨hp, h⟩))
      · exact Or.inr (Or.inl (by simp [uplidEqb, hp, h]))
      · exact Or.inr (Or.inr ((hiff b a).mpr (Or.inr ⟨hp.symm, h⟩)))
    · rcases strLt_connex a.pfx b.pfx hp with h | h
      · exact Or.inl ((hiff a b).mpr (Or.inl h))
      · exact Or.inr (Or.inr ((hiff b a).mpr (Or.inl h)))
  · intro v c₁ c₂
    exact (hiff _ _).mpr
      (Or.inl (show strLt "aaa".data "zzz".data = true by decide))
  · intro a b h
    exact (hiff a b).mpr (Or.inl h)

/-- Witness for C7: prefix-first ordering at a concrete pair with a
larger value on the smaller prefix, and a value tiebreak. -/
theorem claimC7_totalOrder_witness :
    uplidLtb ⟨"aaa".data, 5, none⟩ ⟨"zzz".data, 0, none⟩ = true ∧
    uplidLtb ⟨"usr".data, 1, none⟩ ⟨"usr".data, 2, none⟩ = true :=
  ⟨claimC7_totalOrder.2.2.2.2.2.2 ⟨"aaa".data, 5, none⟩
     ⟨"zzz".data, 0, none⟩ (by decide),
   (claimC7_totalOrder.1 _ _).mpr (Or.inr ⟨rfl, by norm_num⟩)⟩

/-- C9: with equal prefixes, a strictly smaller millisecond field
(`value >> 80`) forces a strictly smaller identifier — integer order
equals chronological order at millisecond granularity. -/
theorem claimC9_chronological (a b : UPLID) (hp : a.pfx = b.pfx)
    (h : timestampMs a < timestampMs b) : uplidLtb a b = true := by
  have huid : a.uid < b.uid := by
    rw [timestampMs, timestampMs, Nat.shiftRight_eq_div_pow,
      Nat.shiftRight_eq_div_pow] at h
    by_contra hc
    push_neg at hc
    exact absurd h (Nat.not_lt.mpr (Nat.div_le_div_right hc))
  rw [uplidLtb, hp]
  simp [strLt_irrefl, huid]

/-- Witness for C9 at two values one millisecond apart. -/
theorem claimC9_chronological_witness :
    uplidLtb ⟨"usr".data, 1 * 2 ^ 80 + 5, none⟩
      ⟨"usr".data, 2 * 2 ^ 80 + 3, none⟩ = true :=
  claimC9_chronological _ _ rfl (by
    show (1 * 2 ^ 80 + 5) >>> 80 < (2 * 2 ^ 80 + 3) >>> 80
    rw [Nat.shiftRight_eq_div_pow, Nat.shiftRight_eq_div_pow]
    norm_num)

/-- C4 counterexample: at value `1000 * 2 ^ 80` the millisecond field
is `1000`, but the `timestamp` property returns `1` (it divides the
field by `_MS_PER_SECOND` and yields seconds), so `timestamp()` does
not return the value `value >> 80` in milliseconds. -/
theorem claimC4_counterexample :
    timestampMs ⟨"usr".data, 1000 * 2 ^ 80, none⟩ = 1000 ∧
    timestamp ⟨"usr".data, 1000 * 2 ^ 80, none⟩ = 1 ∧
    timestamp ⟨"usr".data, 1000 * 2 ^ 80, none⟩ ≠
      ((timestampMs ⟨"usr".data, 1000 * 2 ^ 80, none⟩ : Nat) : ℚ) := by
  have hms : timestampMs ⟨"usr".data, 1000 * 2 ^ 80, none⟩ = 1000 := by
    rw [timestampMs, Nat.shiftRight_eq_div_pow]
    norm_num [uuidv7TimestampShift]
  have hts : timestamp ⟨"usr".data, 1000 * 2 ^ 80, none⟩ = 1 := by
    rw [timestamp, hms]
    norm_num [msPerSecond]
  refine ⟨hms, hts, ?_⟩
  rw [hts, hms]
  norm_num

/-- C4 amended: both accessors read the millisecond field
`ms = value >> 80` and divide it by 1000 — `timestamp()` is the Unix
time in SECONDS `ms / 1000` (float division modelled as exact rational
division), and `datetime()` is the calendar time of that same quotient;
neither validates version or variant bits (they are total functions of
the value). -/
theorem claimC4_timestampSeconds (u : UPLID) :
    timestampMs u = u.uid >>> 80 ∧
    timestampMs u = u.uid / 2 ^ 80 ∧
    timestamp u = (timestampMs u : ℚ) / 1000 ∧
    datetimeEpochSeconds u = timestamp u := by
  refine ⟨rfl, ?_, ?_, rfl⟩
  · rw [timestampMs]
    exact Nat.shiftRight_eq_div_pow _ _
  · rw [timestamp]
    norm_num [msPerSecond]

end Uplid

